import Mathlib

/-!
Verification development for the CSDAT terrain editor
(src/csdat_terrain_editor.py).

The embedding is byte-level and exact: a sector file is a list of bytes
(naturals below 256), elevation samples are rationals (every float the
Python code manipulates on these paths is dyadic, so rational arithmetic
is exact), and the numpy arrays of the mosaic layer are modelled as
matrices given by their dimensions and entry function.
-/

namespace Csdat

/-- Byte buffer: the content of one sector file, one byte per list entry. -/
abbrev Buf := List ℕ

/-- Python `int()` on a rational: truncation toward zero
(`int(height_data_flipped[y, x] * 128)` in `write_sector_to_file`). -/
def pyInt (q : ℚ) : ℤ := if 0 ≤ q then ⌊q⌋ else ⌈q⌉

/-- The clamp `max(0, min(65535, height_value))` of `write_sector_to_file`. -/
def clampU16 (z : ℤ) : ℕ := (max 0 (min 65535 z)).toNat

/-- Little-endian two-byte serialisation `height_value.to_bytes(2, 'little')`
(the value is clamped to 65535 beforehand, so two bytes always suffice). -/
def le16 (v : ℕ) : List ℕ := [v % 256, v / 256]

/-! ### Decoding: `load_single_sector`

The Python function seeks to offset 708 and reads at most 16900 bytes; each
cell reads a 2-byte little-endian sample (`int.from_bytes(data, 'little') / 128`)
then skips 2 bytes.  If a `read(2)` returns fewer than 2 bytes the row is
broken off, and the remaining rows come out empty.  With `n` bytes available,
cell `i` is readable iff `4*i + 2 ≤ n`, so the number of readable cells is
`c = (n + 2) / 4`.  The final `np.array` of the per-row lists succeeds iff
all rows have equal length: all `g` cells per row (`c ≥ g*g`), or all rows
empty (`c = 0`, an array of shape `(g, 0)`); any other `c` gives ragged rows,
`np.array` raises, and the `except` branch returns `None`. -/

/-- Elevation sample `i` of the byte region that starts at file offset 708:
little-endian u16 at region offset `4*i`, divided by 128. -/
def sampleAt (region : Buf) (i : ℕ) : ℚ :=
  ((region.getD (4 * i) 0 : ℚ) + 256 * (region.getD (4 * i + 1) 0 : ℚ)) / 128

/-- Decode one sector file (`load_single_sector`).  `none` models the
`except` branch (ragged rows make `np.array` raise); `some` returns the
row-major grid.  The `c = 0` case returns `g` empty rows (numpy shape
`(g, 0)`), which the caller does not filter out. -/
def load_single_sector (B : Buf) (g : ℕ) : Option (List (List ℚ)) :=
  if g * g ≤ (((B.drop 708).take 16900).length + 2) / 4 then
    some ((List.range g).map fun y =>
      (List.range g).map fun x => sampleAt ((B.drop 708).take 16900) (y * g + x))
  else if (((B.drop 708).take 16900).length + 2) / 4 = 0 then
    some (List.replicate g [])
  else
    none

/-- View a row-list grid as a total indexing function, `0` out of range.
The Python code only ever indexes in range on the paths verified here. -/
def gridFun (G : List (List ℚ)) : ℕ → ℕ → ℚ := fun y x => (G.getD y []).getD x 0

/-! ### Encoding: `write_sector_to_file`

The function copies the whole file into a `bytearray`, flips the incoming
grid vertically (`np.flipud`), and for `y`, `x` in row-major order assigns
`file_content[pos:pos+2] = value.to_bytes(2, 'little')` at
`pos = 708 + (y*grid_size + x)*4`.  Python slice assignment clamps the slice
bounds to the buffer length, so an out-of-range `pos` silently appends the
two bytes at the end instead of raising; no statement in the loop can raise
for a `g`-by-`g` grid (the clamp keeps `to_bytes` in range), so the function
returns success for any buffer length. -/

/-- Python `b[pos:pos+2] = v` on a bytearray: slice bounds clamp to the
buffer length, so positions past the end append. -/
def writeSlice (b : Buf) (pos : ℕ) (v : Buf) : Buf :=
  b.take pos ++ v ++ b.drop (pos + 2)

/-- File offset of elevation sample `i`: `708 + (y*grid_size + x)*4` with
`i = y*grid_size + x`. -/
def cellPos (i : ℕ) : ℕ := 708 + 4 * i

/-- The two bytes written for cell `i` (loop indices `y = i / g`, `x = i % g`):
the vertically flipped grid is sampled, scaled by 128, truncated by `int()`,
clamped to `[0, 65535]` and serialised little-endian. -/
def cellBytes (hgt : ℕ → ℕ → ℚ) (g i : ℕ) : Buf :=
  le16 (clampU16 (pyInt (hgt (g - 1 - i / g) (i % g) * 128)))

/-- Fold the per-cell slice assignments over a buffer. -/
def writeCells (B : Buf) (cells : List (ℕ × Buf)) : Buf :=
  cells.foldl (fun b pv => writeSlice b pv.1 pv.2) B

/-- Buffer produced by `write_sector_to_file` from original bytes `B` and
grid `hgt` (entry function of the `g`-by-`g` numpy array handed in): the
nested `for y / for x` loop is the fold over `i = y*g + x` in increasing
order. -/
def write_sector_bytes (B : Buf) (hgt : ℕ → ℕ → ℚ) (g : ℕ) : Buf :=
  writeCells B ((List.range (g * g)).map fun i => (cellPos i, cellBytes hgt g i))

/-! ### The mosaic layer: numpy arrays as entry functions -/

/-- A 2-D numpy array: row count, column count, entry function. -/
structure Mat where
  h : ℕ
  w : ℕ
  entry : ℕ → ℕ → ℚ

/-- `np.rot90(m, k=1)`: 90 degrees counter-clockwise; shape `(h, w)` becomes
`(w, h)` and `result[i][j] = m[j][w-1-i]`. -/
def rot90ccw (m : Mat) : Mat :=
  ⟨m.w, m.h, fun i j => m.entry j (m.w - 1 - i)⟩

/-- `np.rot90(m, k=-1)`: 90 degrees clockwise; `result[i][j] = m[h-1-j][i]`. -/
def rot90cw (m : Mat) : Mat :=
  ⟨m.w, m.h, fun i j => m.entry (m.h - 1 - j) i⟩

/-- `np.fliplr`: mirror left-right, `result[i][j] = m[i][w-1-j]`. -/
def fliplrM (m : Mat) : Mat :=
  ⟨m.h, m.w, fun i j => m.entry i (m.w - 1 - j)⟩

/-- One block assignment of `create_combined_heightmap`:
`combined_map[dr*g:(dr+1)*g, c*g:(c+1)*g] = np.flipud(sector)`.  Points
inside the block read the vertically flipped sector grid, points outside
fall through to the previous array contents. -/
def placeSector (g : ℕ) (G : ℕ → ℕ → ℚ) (dr c : ℕ) (f : ℕ → ℕ → ℚ) : ℕ → ℕ → ℚ :=
  fun r cc =>
    if dr * g ≤ r ∧ r < dr * g + g ∧ c * g ≤ cc ∧ cc < c * g + g then
      G (g - 1 - (r - dr * g)) (cc - c * g)
    else f r cc

/-- One iteration of the placement double loop: look up sector
`(Y - 1 - display_row) * X + col` and place it if present. -/
def placeStep (S : ℕ → Option (ℕ → ℕ → ℚ)) (X Y g : ℕ)
    (f : ℕ → ℕ → ℚ) (p : ℕ × ℕ) : ℕ → ℕ → ℚ :=
  match S ((Y - 1 - p.1) * X + p.2) with
  | some G => placeSector g G p.1 p.2 f
  | none => f

/-- The `(display_row, col)` pairs of the placement double loop, in loop
order. -/
def pairList (X Y : ℕ) : List (ℕ × ℕ) :=
  (List.range Y).flatMap fun dr => (List.range X).map fun c => (dr, c)

/-- Entry function of `combined_map` after the placement loop and before the
final rotation, starting from `np.zeros`. -/
def placedFun (S : ℕ → Option (ℕ → ℕ → ℚ)) (X Y g : ℕ) : ℕ → ℕ → ℚ :=
  (pairList X Y).foldl (placeStep S X Y g) (fun _ _ => 0)

/-- `create_combined_heightmap`: place all sectors into a
`(Y*g, X*g)` zero array, then `np.rot90(_, k=1)` and `np.fliplr`. -/
def create_combined_heightmap (S : ℕ → Option (ℕ → ℕ → ℚ)) (X Y g : ℕ) : Mat :=
  fliplrM (rot90ccw ⟨Y * g, X * g, placedFun S X Y g⟩)

/-- What one point of the placed array holds, expressed through the sector
map: the sector owning the block of `(r, cc)` if present, else the zero
background. -/
def blockVal (S : ℕ → Option (ℕ → ℕ → ℚ)) (X Y g : ℕ) (r cc : ℕ) : ℚ :=
  match S ((Y - 1 - r / g) * X + cc / g) with
  | some G => G (g - 1 - r % g) (cc % g)
  | none => 0

/-! ### The export path: `TERRAIN_OT_export.execute` plus
`write_sector_to_file`'s un-flip

The import displays `rot90ccw` of the combined map (`rotate_texture=True` in
`numpy_to_blender_image`); the round trip through the Blender image is the
identity on the array.  Export undoes the chain with `rot90(k=-1)`,
`fliplr`, `rot90(k=-1)`, extracts each sector's block at
`(display_row, col)` and hands it to `write_sector_to_file`, which flips it
vertically.  A sector file is only written when it exists on disk
(`os.path.exists`), modelled by the predicate `P`.  The loop runs over
`display_row < Y`, `col < X`, which hits exactly the indices
`idx = (Y-1-display_row)*X + col < X*Y`, with `display_row = Y-1-idx/X`
and `col = idx % X`. -/

/-- The grid that the export path hands back for each sector index: `none`
when the sector's file does not exist, otherwise the vertically un-flipped
block of the un-rotated mosaic. -/
def exportSplit (M : Mat) (X Y g : ℕ) (P : ℕ → Bool) : ℕ → Option (ℕ → ℕ → ℚ) :=
  fun idx =>
    if idx < X * Y ∧ P idx = true then
      some (fun y x =>
        (rot90cw (fliplrM (rot90cw (rot90ccw M)))).entry
          ((Y - 1 - idx / X) * g + (g - 1 - y)) ((idx % X) * g + x))
    else none

/-! ### Normalization: `numpy_to_blender_image` and the export
denormalization -/

/-- All entries of a matrix, row-major (numpy flatten order). -/
def matVals (m : Mat) : List ℚ :=
  (List.range m.h).flatMap fun i => (List.range m.w).map fun j => m.entry i j

/-- `np.min` over the matrix (0 for an empty matrix, a case numpy would
reject; no claim touches it). -/
def matMin (m : Mat) : ℚ := (matVals m).foldl min ((matVals m).headD 0)

/-- `np.max` over the matrix. -/
def matMax (m : Mat) : ℚ := (matVals m).foldl max ((matVals m).headD 0)

/-- The normalization core of `numpy_to_blender_image`:
`(value - min) / (max - min)` when `max > min`, else all zeros.  The RGBA
replication writes this scalar into the three color channels and is read
back from the R channel by `blender_image_to_numpy`, so the scalar image is
the faithful model. -/
def numpy_to_blender_norm (m : Mat) : Mat :=
  ⟨m.h, m.w, fun i j =>
    if matMin m < matMax m then (m.entry i j - matMin m) / (matMax m - matMin m)
    else 0⟩

/-- The denormalization of `TERRAIN_OT_export.execute`:
`pixel * (max - min) + min` when `max > min`, else `pixel * max`. -/
def denormalize (img : Mat) (mn mx : ℚ) : Mat :=
  ⟨img.h, img.w, fun i j =>
    if mn < mx then img.entry i j * (mx - mn) + mn
    else img.entry i j * mx⟩

/-! ### Directory loading: `load_sectors_from_directory`

Globbing and filename parsing are abstracted into a map from sector number
to file content; a sector enters the map iff its file decodes to a
non-`None` grid.  The call site passes no grid size, so the default 65 is
always used. -/

/-- Sector map built by `load_sectors_from_directory` (as entry functions,
for the mosaic layer). -/
def load_sectors_map (files : ℕ → Option Buf) : ℕ → Option (ℕ → ℕ → ℚ) :=
  fun idx => ((files idx).bind fun b => load_single_sector b 65).map gridFun

/-! ### Lemmas about slice assignment and the encoder -/

theorem writeSlice_length {b : Buf} {pos : ℕ} {v : Buf}
    (hv : v.length = 2) (hp : pos + 2 ≤ b.length) :
    (writeSlice b pos v).length = b.length := by
  simp only [writeSlice, List.length_append, List.length_take, List.length_drop, hv]
  omega

theorem writeSlice_get_lt {b : Buf} {pos : ℕ} {v : Buf} {j : ℕ}
    (hp : pos + 2 ≤ b.length) (hj : j < pos) :
    (writeSlice b pos v)[j]? = b[j]? := by
  rw [writeSlice, List.append_assoc,
    List.getElem?_append_left (by rw [List.length_take]; omega),
    List.getElem?_take, if_pos hj]

theorem writeSlice_get_ge {b : Buf} {pos : ℕ} {v : Buf} {j : ℕ}
    (hv : v.length = 2) (hp : pos + 2 ≤ b.length) (hj : pos + 2 ≤ j) :
    (writeSlice b pos v)[j]? = b[j]? := by
  have ht : (b.take pos).length = pos := by rw [List.length_take]; omega
  rw [writeSlice, List.append_assoc,
    List.getElem?_append_right (by rw [ht]; omega),
    List.getElem?_append_right (by rw [ht, hv]; omega),
    List.getElem?_drop]
  congr 1
  rw [ht, hv]
  omega

theorem writeSlice_get_in {b : Buf} {pos : ℕ} {v : Buf} {j : ℕ}
    (hv : v.length = 2) (hp : pos + 2 ≤ b.length) (hj1 : pos ≤ j) (hj2 : j < pos + 2) :
    (writeSlice b pos v)[j]? = v[j - pos]? := by
  have ht : (b.take pos).length = pos := by rw [List.length_take]; omega
  rw [writeSlice, List.append_assoc,
    List.getElem?_append_right (by rw [ht]; omega),
    List.getElem?_append_left (by rw [ht, hv]; omega), ht]

theorem writeCells_append (B : Buf) (c1 c2 : List (ℕ × Buf)) :
    writeCells B (c1 ++ c2) = writeCells (writeCells B c1) c2 := by
  simp [writeCells]

theorem writeCells_length : ∀ {cells : List (ℕ × Buf)} {B : Buf},
    (∀ pv ∈ cells, (pv.2).length = 2 ∧ pv.1 + 2 ≤ B.length) →
    (writeCells B cells).length = B.length := by
  intro cells
  induction cells with
  | nil => intro B _; rfl
  | cons pv rest ih =>
    intro B hc
    have h0 := hc pv (List.mem_cons_self _ _)
    have hstep : writeCells B (pv :: rest) = writeCells (writeSlice B pv.1 pv.2) rest := rfl
    have hlen : (writeSlice B pv.1 pv.2).length = B.length := writeSlice_length h0.1 h0.2
    rw [hstep, ih, hlen]
    intro qv hqv
    have := hc qv (List.mem_cons_of_mem _ hqv)
    rw [hlen]
    exact this

theorem writeCells_get_out : ∀ {cells : List (ℕ × Buf)} {B : Buf} {j : ℕ},
    (∀ pv ∈ cells, (pv.2).length = 2 ∧ pv.1 + 2 ≤ B.length) →
    (∀ pv ∈ cells, j < pv.1 ∨ pv.1 + 2 ≤ j) →
    (writeCells B cells)[j]? = B[j]? := by
  intro cells
  induction cells with
  | nil => intro B j _ _; rfl
  | cons pv rest ih =>
    intro B j hc hj
    have h0 := hc pv (List.mem_cons_self _ _)
    have hstep : writeCells B (pv :: rest) = writeCells (writeSlice B pv.1 pv.2) rest := rfl
    have hlen : (writeSlice B pv.1 pv.2).length = B.length := writeSlice_length h0.1 h0.2
    rw [hstep]
    have hrest : (writeCells (writeSlice B pv.1 pv.2) rest)[j]? = (writeSlice B pv.1 pv.2)[j]? := by
      apply ih
      · intro qv hqv
        have := hc qv (List.mem_cons_of_mem _ hqv)
        rw [hlen]
        exact this
      · intro qv hqv
        exact hj qv (List.mem_cons_of_mem _ hqv)
    rw [hrest]
    rcases hj pv (List.mem_cons_self _ _) with h | h
    · exact writeSlice_get_lt h0.2 h
    · exact writeSlice_get_ge h0.1 h0.2 h

theorem cellBytes_length (hgt : ℕ → ℕ → ℚ) (g i : ℕ) : (cellBytes hgt g i).length = 2 := rfl

theorem encode_cells_bound {B : Buf} {hgt : ℕ → ℕ → ℚ} {g : ℕ}
    (hlen : 708 + 4 * (g * g) ≤ B.length) :
    ∀ pv ∈ (List.range (g * g)).map fun i => (cellPos i, cellBytes hgt g i),
      (pv.2).length = 2 ∧ pv.1 + 2 ≤ B.length := by
  intro pv hpv
  simp only [List.mem_map, List.mem_range] at hpv
  obtain ⟨i, hi, rfl⟩ := hpv
  refine ⟨rfl, ?_⟩
  simp only [cellPos]
  omega

/-- Pointwise description of the encoder output: elevation-sample bytes come
from `cellBytes`, every other byte is copied from the original buffer. -/
theorem write_sector_bytes_getElem (B : Buf) (hgt : ℕ → ℕ → ℚ) (g : ℕ)
    (hlen : 708 + 4 * (g * g) ≤ B.length) (j : ℕ) :
    (write_sector_bytes B hgt g)[j]? =
      if 708 ≤ j ∧ j < 708 + 4 * (g * g) ∧ (j - 708) % 4 < 2 then
        (cellBytes hgt g ((j - 708) / 4))[(j - 708) % 4]?
      else B[j]? := by
  have hcells := @encode_cells_bound B hgt g hlen
  by_cases hin : 708 ≤ j ∧ j < 708 + 4 * (g * g) ∧ (j - 708) % 4 < 2
  · rw [if_pos hin]
    obtain ⟨h1, h2, h3⟩ := hin
    generalize hn : g * g = n at *
    set d := j - 708 with hd
    set i := d / 4 with hi
    have hig : i < n := by omega
    have hsplit : List.range n = (List.range i ++ [i]) ++ (List.range (n - (i + 1))).map ((i + 1) + ·) := by
      conv_lhs => rw [show n = (i + 1) + (n - (i + 1)) from by omega]
      rw [List.range_add, List.range_succ]
    rw [write_sector_bytes, hn, hsplit, List.map_append, List.map_append,
      writeCells_append, writeCells_append]
    have hlen1 : (writeCells B ((List.range i).map fun k => (cellPos k, cellBytes hgt g k))).length = B.length := by
      apply writeCells_length
      intro pv hpv
      simp only [List.mem_map, List.mem_range] at hpv
      obtain ⟨k, hk, rfl⟩ := hpv
      refine ⟨rfl, ?_⟩
      simp only [cellPos]
      omega
    have hmid : writeCells (writeCells B ((List.range i).map fun k => (cellPos k, cellBytes hgt g k)))
        ([i].map fun k => (cellPos k, cellBytes hgt g k)) =
        writeSlice (writeCells B ((List.range i).map fun k => (cellPos k, cellBytes hgt g k)))
          (cellPos i) (cellBytes hgt g i) := rfl
    rw [hmid]
    have hmidlen : (writeSlice (writeCells B ((List.range i).map fun k => (cellPos k, cellBytes hgt g k)))
        (cellPos i) (cellBytes hgt g i)).length = B.length := by
      rw [writeSlice_length (cellBytes_length hgt g i) (by rw [hlen1]; simp only [cellPos]; omega), hlen1]
    rw [writeCells_get_out ?_ ?_]
    · rw [writeSlice_get_in (cellBytes_length hgt g i)
        (by rw [hlen1]; simp only [cellPos]; omega)
        (by simp only [cellPos]; omega)
        (by simp only [cellPos]; omega)]
      rw [show j - cellPos i = d % 4 from by simp only [cellPos]; omega]
    · intro pv hpv
      simp only [List.mem_map, List.mem_range] at hpv
      obtain ⟨k, hk, rfl⟩ := hpv
      rw [hmidlen]
      refine ⟨rfl, ?_⟩
      simp only [cellPos]
      omega
    · intro pv hpv
      simp only [List.mem_map, List.mem_range] at hpv
      obtain ⟨k, hk, rfl⟩ := hpv
      simp only [cellPos]
      omega
  · rw [if_neg hin]
    apply writeCells_get_out hcells
    intro pv hpv
    simp only [List.mem_map, List.mem_range] at hpv
    obtain ⟨k, hk, rfl⟩ := hpv
    simp only [cellPos]
    generalize hn : g * g = n at *
    omega

/-- The encoder never changes the buffer length when the buffer covers the
elevation region. -/
theorem write_sector_bytes_length (B : Buf) (hgt : ℕ → ℕ → ℚ) (g : ℕ)
    (hlen : 708 + 4 * (g * g) ≤ B.length) :
    (write_sector_bytes B hgt g).length = B.length :=
  writeCells_length (encode_cells_bound hlen)

theorem cell_div {g y x : ℕ} (hy : y < g) (hx : x < g) : (y * g + x) / g = y := by
  rw [Nat.add_comm, Nat.add_mul_div_right _ _ (Nat.lt_of_le_of_lt (Nat.zero_le _) hy),
    Nat.div_eq_of_lt hx, Nat.zero_add]

theorem cell_mod {g y x : ℕ} (hx : x < g) : (y * g + x) % g = x := by
  rw [Nat.add_comm, Nat.add_mul_mod_self_right, Nat.mod_eq_of_lt hx]

theorem pyInt_eq (q : ℚ) (z : ℤ) (h0 : 0 ≤ q) (h1 : (z : ℚ) ≤ q) (h2 : q < z + 1) :
    pyInt q = z := by
  rw [pyInt, if_pos h0]
  exact Int.floor_eq_iff.mpr ⟨h1, h2⟩

/-! ### Claim theorems for the encoder -/

/-- C7: on a buffer that covers the whole elevation region, the encoder
keeps the length and changes nothing outside the 2-byte elevation samples:
the 708-byte header, the 2 trailing payload bytes of every cell
(`(j - 708) % 4 ≥ 2`), and everything after the region are copied verbatim. -/
theorem C7_frame (B : Buf) (hgt : ℕ → ℕ → ℚ) (g : ℕ)
    (hlen : 708 + 4 * (g * g) ≤ B.length) :
    (write_sector_bytes B hgt g).length = B.length ∧
    ∀ j : ℕ, (j < 708 ∨ 708 + 4 * (g * g) ≤ j ∨ 2 ≤ (j - 708) % 4) →
      (write_sector_bytes B hgt g)[j]? = B[j]? := by
  refine ⟨write_sector_bytes_length B hgt g hlen, fun j hj => ?_⟩
  rw [write_sector_bytes_getElem B hgt g hlen j, if_neg]
  rintro ⟨h1, h2, h3⟩
  omega

/-- C7 witness: a concrete 724-byte buffer with `g = 2`; the trailing
payte of the first cell (offset 710) and a header byte are untouched and
the length is preserved. -/
theorem C7_frame_witness :
    (write_sector_bytes (List.replicate 724 0) (fun _ _ => (9 : ℚ)) 2).length =
      (List.replicate 724 0 : Buf).length ∧
    (write_sector_bytes (List.replicate 724 0) (fun _ _ => (9 : ℚ)) 2)[710]? =
      (List.replicate 724 0 : Buf)[710]? := by
  have h := C7_frame (List.replicate 724 0) (fun _ _ => (9 : ℚ)) 2
    (by rw [List.length_replicate])
  exact ⟨h.1, h.2 710 (by omega)⟩

/-- C2 amended: the byte pair the encoder writes at offset
`708 + (y*g + x)*4` is the little-endian serialisation of
`trunc(grid[g-1-y][x] * 128)` clamped to `[0, 65535]` — the value comes
from the vertically flipped grid (`np.flipud` in `write_sector_to_file`)
and `int()` truncates rather than rounds. -/
theorem C2_encode_formula (B : Buf) (hgt : ℕ → ℕ → ℚ) (g y x : ℕ)
    (hy : y < g) (hx : x < g) (hlen : 708 + 4 * (g * g) ≤ B.length) :
    (write_sector_bytes B hgt g)[708 + 4 * (y * g + x)]? =
      some (clampU16 (pyInt (hgt (g - 1 - y) x * 128)) % 256) ∧
    (write_sector_bytes B hgt g)[708 + 4 * (y * g + x) + 1]? =
      some (clampU16 (pyInt (hgt (g - 1 - y) x * 128)) / 256) := by
  have hi : y * g + x < g * g := by
    calc y * g + x < y * g + g := by omega
    _ = (y + 1) * g := by ring
    _ ≤ g * g := Nat.mul_le_mul_right g hy
  constructor
  · rw [write_sector_bytes_getElem B hgt g hlen _, if_pos (by omega)]
    have hd : (708 + 4 * (y * g + x) - 708) = 4 * (y * g + x) := by omega
    rw [hd, Nat.mul_div_cancel_left _ (by omega), Nat.mul_mod_right,
      cellBytes, cell_div hy hx, cell_mod hx, le16]
    rfl
  · rw [write_sector_bytes_getElem B hgt g hlen _, if_pos (by omega)]
    have hd : (708 + 4 * (y * g + x) + 1 - 708) = 4 * (y * g + x) + 1 := by omega
    rw [hd, show (4 * (y * g + x) + 1) / 4 = y * g + x from by omega,
      show (4 * (y * g + x) + 1) % 4 = 1 from by omega,
      cellBytes, cell_div hy hx, cell_mod hx, le16]
    rfl

/-- C2 witness: concrete instance `g = 2`, `y = 1`, `x = 0`, grid entry
function `fun y x => y` on a 724-byte zero buffer. -/
theorem C2_encode_formula_witness :
    (write_sector_bytes (List.replicate 724 0) (fun y _ => (y : ℚ)) 2)[708 + 4 * (1 * 2 + 0)]? =
      some (clampU16 (pyInt ((fun (y _ : ℕ) => (y : ℚ)) (2 - 1 - 1) 0 * 128)) % 256) ∧
    (write_sector_bytes (List.replicate 724 0) (fun y _ => (y : ℚ)) 2)[708 + 4 * (1 * 2 + 0) + 1]? =
      some (clampU16 (pyInt ((fun (y _ : ℕ) => (y : ℚ)) (2 - 1 - 1) 0 * 128)) / 256) :=
  C2_encode_formula (List.replicate 724 0) (fun y _ => (y : ℚ)) 2 1 0
    (by omega) (by omega) (by rw [List.length_replicate])

/-- C2 counterexample: the claim's formula fails on the code.  First
conjunct: with the grid `grid[y][x] = y` (so `grid[0][0] = 0`) and `g = 2`,
the claim predicts byte 0 = `round(grid[0][0]*128) % 256 = 0` at offset 708,
but the code writes the flipped cell `grid[1][0] = 1` there, byte 128.
Second conjunct: with the constant grid `3/256` and `g = 1` the claim
predicts `round(1.5) = 2` (both for half-up and banker's rounding), but
`int()` truncates to 1. -/
theorem C2_counterexample :
    (write_sector_bytes (List.replicate 724 0) (fun y _ => (y : ℚ)) 2)[708]? ≠ some 0 ∧
    (write_sector_bytes (List.replicate 712 0) (fun _ _ => (3 : ℚ) / 256) 1)[708]? ≠ some 2 := by
  constructor
  · rw [write_sector_bytes_getElem _ _ 2 (by rw [List.length_replicate]) 708,
      if_pos (by norm_num)]
    have hc : cellBytes (fun y _ => (y : ℚ)) 2 ((708 - 708) / 4) = [128, 0] := by
      rw [cellBytes,
        show ((fun (y _ : ℕ) => (y : ℚ)) (2 - 1 - (708 - 708) / 4 / 2) ((708 - 708) / 4 % 2) * 128)
          = 128 from by norm_num,
        pyInt_eq 128 128 (by norm_num) (by norm_num) (by norm_num)]
      decide
    rw [hc, show ((708 : ℕ) - 708) % 4 = 0 from rfl]
    decide
  · rw [write_sector_bytes_getElem _ _ 1 (by rw [List.length_replicate]) 708,
      if_pos (by norm_num)]
    have hc : cellBytes (fun _ _ => (3 : ℚ) / 256) 1 ((708 - 708) / 4) = [1, 0] := by
      rw [cellBytes,
        show ((fun (_ _ : ℕ) => (3 : ℚ) / 256) (1 - 1 - (708 - 708) / 4 / 1) ((708 - 708) / 4 % 1) * 128)
          = 3 / 2 from by norm_num,
        pyInt_eq (3 / 2) 1 (by norm_num) (by norm_num) (by norm_num)]
      decide
    rw [hc, show ((708 : ℕ) - 708) % 4 = 0 from rfl]
    decide

/-- C6 (code bug): `write_sector_to_file` on a buffer shorter than the
elevation region does not fail.  Python bytearray slice assignment clamps
out-of-range slice bounds, so `file_content[pos:pos+2] = ...` with
`pos = 708` past the end of a 708-byte file silently appends the two sample
bytes; no statement raises, the function returns `True`.  Here: a 708-byte
file (shorter than the required `708 + 4*1*1 = 712`) with grid `[[1.0]]`
and `grid_size = 1` yields a 710-byte buffer with `1.0 * 128 = 128`
appended little-endian, instead of the `EncodeError(TooSmall)` the claim
requires. -/
theorem C6_encode_short_buffer :
    write_sector_bytes (List.replicate 708 0) (fun _ _ => (1 : ℚ)) 1 =
      List.replicate 708 0 ++ [128, 0] := by
  have hcell : cellBytes (fun _ _ => (1 : ℚ)) 1 0 = [128, 0] := by
    rw [cellBytes,
      show ((fun (_ _ : ℕ) => (1 : ℚ)) (1 - 1 - 0 / 1) (0 % 1) * 128) = 128 from by norm_num,
      pyInt_eq 128 128 (by norm_num) (by norm_num) (by norm_num)]
    decide
  have hrange : (List.range (1 * 1)).map
      (fun i => (cellPos i, cellBytes (fun _ _ => (1 : ℚ)) 1 i)) =
      [(708, cellBytes (fun _ _ => (1 : ℚ)) 1 0)] := rfl
  rw [write_sector_bytes, hrange,
    show writeCells (List.replicate 708 0) [(708, cellBytes (fun _ _ => (1 : ℚ)) 1 0)] =
      writeSlice (List.replicate 708 0) 708 (cellBytes (fun _ _ => (1 : ℚ)) 1 0) from rfl,
    hcell, writeSlice,
    List.take_of_length_le (by rw [List.length_replicate]),
    List.drop_eq_nil_of_le (by rw [List.length_replicate]; norm_num),
    List.append_nil]

/-! ### Lemmas about the decoder -/

theorem region_getD (B : Buf) (k : ℕ) (hk : k < 16900) :
    ((B.drop 708).take 16900).getD k 0 = B.getD (708 + k) 0 := by
  rw [List.getD_eq_getElem?_getD, List.getD_eq_getElem?_getD, List.getElem?_take,
    if_pos hk, List.getElem?_drop]

/-- On a buffer that covers the elevation region, and for a grid size within
the 16900-byte read cap (`g ≤ 65`), the decoder succeeds with the full
row-major grid. -/
theorem load_single_sector_eq (B : Buf) (g : ℕ)
    (hlen : 708 + 4 * (g * g) ≤ B.length) (hcap : g ≤ 65) :
    load_single_sector B g =
      some ((List.range g).map fun y =>
        (List.range g).map fun x => sampleAt ((B.drop 708).take 16900) (y * g + x)) := by
  rw [load_single_sector, if_pos]
  have hg : g * g ≤ 65 * 65 := Nat.mul_le_mul hcap hcap
  rw [List.length_take, List.length_drop]
  omega

theorem gridFun_mk (f : ℕ → ℚ) (g y x : ℕ) (hy : y < g) (hx : x < g) :
    gridFun ((List.range g).map fun y0 => (List.range g).map fun x0 => f (y0 * g + x0)) y x
      = f (y * g + x) := by
  simp only [gridFun, List.getD_eq_getElem?_getD, List.getElem?_map,
    List.getElem?_range hy, List.getElem?_range hx, Option.map_some', Option.getD_some]

theorem gridFun_reverse (G : List (List ℚ)) (g y x : ℕ) (hG : G.length = g) (hy : y < g) :
    gridFun G.reverse y x = gridFun G (g - 1 - y) x := by
  simp only [gridFun, List.getD_eq_getElem?_getD]
  rw [List.getElem?_reverse (by rw [hG]; exact hy), hG]

theorem getD_lt_256 (B : Buf) (hb : ∀ b ∈ B, b < 256) (idx : ℕ) : B.getD idx 0 < 256 := by
  rw [List.getD_eq_getElem?_getD]
  cases hx : B[idx]? with
  | none => norm_num
  | some a => exact hb a (List.getElem?_mem hx)

theorem getElem?_eq_getD (B : Buf) (idx : ℕ) (h : idx < B.length) :
    B[idx]? = some (B.getD idx 0) := by
  rw [List.getD_eq_getElem?_getD, List.getElem?_eq_getElem h, Option.getD_some]

theorem pyInt_natCast (k : ℕ) : pyInt (k : ℚ) = k := by
  rw [pyInt, if_pos (by positivity)]
  exact_mod_cast Int.floor_natCast k

theorem clampU16_natCast (k : ℕ) (hk : k ≤ 65535) : clampU16 (k : ℤ) = k := by
  rw [clampU16]
  omega

/-! ### Claim theorems for the decoder -/

/-- C8 counterexample: with `grid_size = 66` and a buffer of the full
expected length `708 + 4*66*66 = 18132`, the decoder produces no grid at
all: `load_single_sector` reads at most 16900 bytes, so only 4225 of the
4356 cells are readable, the row lists come out ragged, `np.array` raises
and the function returns `None`. -/
theorem C8_counterexample : load_single_sector (List.replicate 18132 0) 66 = none := by
  rw [load_single_sector, if_neg, if_neg] <;>
    rw [List.length_take, List.length_drop, List.length_replicate] <;> norm_num

/-- C8 amended: for grid sizes within the fixed 16900-byte read cap
(`g ≤ 65`) and a buffer covering the elevation region, decode succeeds and
cell `(y, x)` of the grid equals the little-endian u16 at byte offset
`708 + 4*(y*g + x)`, divided by 128. -/
theorem C8_decode_formula (B : Buf) (g y x : ℕ) (hy : y < g) (hx : x < g)
    (hlen : 708 + 4 * (g * g) ≤ B.length) (hcap : g ≤ 65) :
    ∃ G, load_single_sector B g = some G ∧
      gridFun G y x =
        ((B.getD (708 + 4 * (y * g + x)) 0 : ℚ) +
          256 * (B.getD (708 + 4 * (y * g + x) + 1) 0 : ℚ)) / 128 := by
  refine ⟨_, load_single_sector_eq B g hlen hcap, ?_⟩
  have hi : y * g + x < g * g := by
    calc y * g + x < y * g + g := by omega
    _ = (y + 1) * g := by ring
    _ ≤ g * g := Nat.mul_le_mul_right g hy
  have hg : g * g ≤ 65 * 65 := Nat.mul_le_mul hcap hcap
  rw [gridFun_mk _ g y x hy hx, sampleAt,
    region_getD B (4 * (y * g + x)) (by omega),
    region_getD B (4 * (y * g + x) + 1) (by omega),
    show 708 + (4 * (y * g + x) + 1) = 708 + 4 * (y * g + x) + 1 from by omega]

/-- C8 witness: a 712-byte buffer, `g = 1`: the single cell decodes to the
u16 at offset 708 divided by 128. -/
theorem C8_decode_formula_witness :
    ∃ G, load_single_sector (List.replicate 708 0 ++ [7, 0, 0, 0]) 1 = some G ∧
      gridFun G 0 0 =
        (((List.replicate 708 0 ++ [7, 0, 0, 0] : Buf).getD (708 + 4 * (0 * 1 + 0)) 0 : ℚ) +
          256 * ((List.replicate 708 0 ++ [7, 0, 0, 0] : Buf).getD (708 + 4 * (0 * 1 + 0) + 1) 0 : ℚ)) / 128 :=
  C8_decode_formula (List.replicate 708 0 ++ [7, 0, 0, 0]) 1 0 0 (by omega) (by omega)
    (by simp only [List.length_append, List.length_replicate, List.length_cons,
      List.length_nil]; omega)
    (by omega)

theorem region_byte_lt (B : Buf) (hb : ∀ b ∈ B, b < 256) (k : ℕ) :
    ((B.drop 708).take 16900).getD k 0 < 256 := by
  apply getD_lt_256
  intro b hbm
  exact hb b (List.mem_of_mem_drop (List.mem_of_mem_take hbm))

/-- C10: every value decoded by `load_single_sector` is `k / 128` for a
natural `k ≤ 65535`, and re-encoding it (`int(v * 128)` then the clamp to
`[0, 65535]`) reproduces `k` unchanged — the clamp never alters a
decoded-but-unedited sample. -/
theorem C10_range_invariant (B : Buf) (g : ℕ) (G : List (List ℚ))
    (hb : ∀ b ∈ B, b < 256) (hload : load_single_sector B g = some G) :
    ∀ row ∈ G, ∀ v ∈ row, ∃ k : ℕ, k ≤ 65535 ∧ v = (k : ℚ) / 128 ∧
      clampU16 (pyInt (v * 128)) = k := by
  intro row hrow v hv
  rw [load_single_sector] at hload
  by_cases h1 : g * g ≤ (((B.drop 708).take 16900).length + 2) / 4
  · rw [if_pos h1] at hload
    obtain rfl := Option.some.inj hload
    simp only [List.mem_map, List.mem_range] at hrow
    obtain ⟨y, hy, rfl⟩ := hrow
    simp only [List.mem_map, List.mem_range] at hv
    obtain ⟨x, hx, rfl⟩ := hv
    have hb0 := region_byte_lt B hb (4 * (y * g + x))
    have hb1 := region_byte_lt B hb (4 * (y * g + x) + 1)
    refine ⟨((B.drop 708).take 16900).getD (4 * (y * g + x)) 0 +
      256 * ((B.drop 708).take 16900).getD (4 * (y * g + x) + 1) 0, by omega, ?_, ?_⟩
    · rw [sampleAt]
      push_cast
      ring
    · rw [sampleAt, div_mul_cancel₀ _ (by norm_num : (128 : ℚ) ≠ 0),
        show (((B.drop 708).take 16900).getD (4 * (y * g + x)) 0 : ℚ) +
            256 * (((B.drop 708).take 16900).getD (4 * (y * g + x) + 1) 0 : ℚ) =
          ((((B.drop 708).take 16900).getD (4 * (y * g + x)) 0 +
            256 * ((B.drop 708).take 16900).getD (4 * (y * g + x) + 1) 0 : ℕ) : ℚ) from by
          push_cast; ring,
        pyInt_natCast, clampU16_natCast _ (by omega)]
  · rw [if_neg h1] at hload
    by_cases h2 : (((B.drop 708).take 16900).length + 2) / 4 = 0
    · rw [if_pos h2] at hload
      obtain rfl := Option.some.inj hload
      rw [List.eq_of_mem_replicate hrow] at hv
      exact absurd hv (List.not_mem_nil v)
    · rw [if_neg h2] at hload
      exact absurd hload (by simp)

/-- C10 witness: the 712-byte buffer whose single sample is 7 decodes to
`7/128`, which the invariant instantiates with `k = 7`. -/
theorem C10_range_invariant_witness :
    ∃ k : ℕ, k ≤ 65535 ∧ (7 : ℚ) / 128 = (k : ℚ) / 128 ∧
      clampU16 (pyInt ((7 : ℚ) / 128 * 128)) = k := by
  have hlen : 708 + 4 * (1 * 1) ≤ (List.replicate 708 0 ++ [7, 0, 0, 0] : Buf).length := by
    simp only [List.length_append, List.length_replicate, List.length_cons, List.length_nil]
    omega
  have hload := load_single_sector_eq (List.replicate 708 0 ++ [7, 0, 0, 0]) 1 hlen (by omega)
  have hsample : sampleAt (((List.replicate 708 0 ++ [7, 0, 0, 0] : Buf).drop 708).take 16900)
      (0 * 1 + 0) = (7 : ℚ) / 128 := by
    rw [sampleAt, region_getD _ _ (by omega), region_getD _ _ (by omega)]
    rw [show (708 + (4 * (0 * 1 + 0) + 1)) = 709 from rfl, show (708 + 4 * (0 * 1 + 0)) = 708 from rfl]
    rw [List.getD_eq_getElem?_getD, List.getD_eq_getElem?_getD,
      List.getElem?_append_right (by rw [List.length_replicate]),
      List.getElem?_append_right (by rw [List.length_replicate]; omega),
      List.length_replicate]
    norm_num
  have hG : load_single_sector (List.replicate 708 0 ++ [7, 0, 0, 0]) 1 = some [[(7 : ℚ) / 128]] := by
    rw [hload]
    rw [show ((List.range 1).map fun y =>
        (List.range 1).map fun x =>
          sampleAt (((List.replicate 708 0 ++ [7, 0, 0, 0] : Buf).drop 708).take 16900) (y * 1 + x)) =
      [[sampleAt (((List.replicate 708 0 ++ [7, 0, 0, 0] : Buf).drop 708).take 16900) (0 * 1 + 0)]] from rfl]
    rw [hsample]
  exact C10_range_invariant (List.replicate 708 0 ++ [7, 0, 0, 0]) 1 [[(7 : ℚ) / 128]]
    (by
      intro b hbm
      rcases List.mem_append.mp hbm with h | h
      · rw [List.eq_of_mem_replicate h]; omega
      · rcases h with _ | ⟨_, _ | ⟨_, _ | ⟨_, _ | ⟨_, h⟩⟩⟩⟩ <;> first | omega | exact absurd h (List.not_mem_nil _))
    hG [(7 : ℚ) / 128] (by simp) ((7 : ℚ) / 128) (by simp)

/-- C1 amended: the codec round-trips bit-for-bit only after re-flipping the
decoded grid vertically, because `write_sector_to_file` flips its input
(`np.flipud`) while `load_single_sector` does not (the flip is undone by the
mosaic layer in the real pipeline).  For every byte buffer covering the
elevation region, with grid size within the 16900-byte read cap,
`encode(B, flipud(decode(B, g)), g) = B`. -/
theorem C1_roundtrip_flipped (B : Buf) (g : ℕ) (G : List (List ℚ))
    (hb : ∀ b ∈ B, b < 256) (hlen : 708 + 4 * (g * g) ≤ B.length) (hcap : g ≤ 65)
    (hload : load_single_sector B g = some G) :
    write_sector_bytes B (gridFun G.reverse) g = B := by
  rw [load_single_sector_eq B g hlen hcap] at hload
  obtain rfl := Option.some.inj hload
  have hg25 : g * g ≤ 65 * 65 := Nat.mul_le_mul hcap hcap
  apply List.ext_getElem?
  intro j
  rw [write_sector_bytes_getElem B _ g hlen j]
  by_cases hin : 708 ≤ j ∧ j < 708 + 4 * (g * g) ∧ (j - 708) % 4 < 2
  · rw [if_pos hin]
    obtain ⟨h1, h2, h3⟩ := hin
    rcases Nat.eq_zero_or_pos g with rfl | hg0
    · exfalso
      omega
    obtain ⟨i, hi⟩ : ∃ i, i = (j - 708) / 4 := ⟨_, rfl⟩
    rw [← hi]
    have hig : i < g * g := by omega
    obtain ⟨y, hy, x, hx, hyx⟩ : ∃ y, y < g ∧ ∃ x, x < g ∧ y * g + x = i :=
      ⟨i / g, (Nat.div_lt_iff_lt_mul hg0).mpr hig, i % g, Nat.mod_lt _ hg0,
        by rw [Nat.mul_comm]; exact Nat.div_add_mod i g⟩
    rw [cellBytes]
    have hdiv : i / g = y := by rw [← hyx, cell_div hy hx]
    have hmod : i % g = x := by rw [← hyx, cell_mod hx]
    rw [hdiv, hmod]
    have hd0 := getD_lt_256 B hb (708 + 4 * i)
    have hd1 := getD_lt_256 B hb (708 + 4 * i + 1)
    rw [gridFun_reverse _ g _ _ (by simp) (by omega),
      show g - 1 - (g - 1 - y) = y from by omega,
      gridFun_mk _ g y x hy hx, hyx, sampleAt,
      region_getD _ _ (by omega), region_getD _ _ (by omega),
      show 708 + (4 * i + 1) = 708 + 4 * i + 1 from by omega,
      div_mul_cancel₀ _ (by norm_num : (128 : ℚ) ≠ 0),
      show ((B.getD (708 + 4 * i) 0 : ℚ) + 256 * (B.getD (708 + 4 * i + 1) 0 : ℚ)) =
        ((B.getD (708 + 4 * i) 0 + 256 * B.getD (708 + 4 * i + 1) 0 : ℕ) : ℚ) from by
        push_cast; ring,
      pyInt_natCast, clampU16_natCast _ (by omega), le16,
      show (B.getD (708 + 4 * i) 0 + 256 * B.getD (708 + 4 * i + 1) 0) % 256 =
        B.getD (708 + 4 * i) 0 from by omega,
      show (B.getD (708 + 4 * i) 0 + 256 * B.getD (708 + 4 * i + 1) 0) / 256 =
        B.getD (708 + 4 * i + 1) 0 from by omega]
    rcases (by omega : (j - 708) % 4 = 0 ∨ (j - 708) % 4 = 1) with h4 | h4
    · rw [h4, show j = 708 + 4 * i from by omega, getElem?_eq_getD B _ (by omega)]
      rfl
    · rw [h4, show j = 708 + 4 * i + 1 from by omega, getElem?_eq_getD B _ (by omega)]
      rfl
  · rw [if_neg hin]

/-- C1 counterexample: the claim as stated, `encode(B, decode(B, g), g) = B`,
fails.  With `g = 2` and a 724-byte buffer whose only nonzero byte is the
sample of cell `(0, 0)` (value 1 at offset 708), the encoder's internal
vertical flip writes cell `(1, 0)`'s decoded value 0 at offset 708, so the
output differs from the input there. -/
theorem C1_counterexample :
    (load_single_sector
        (List.replicate 708 0 ++ [1, 0, 0, 0, 0, 0, 0, 0, 0, 0, 0, 0, 0, 0, 0, 0]) 2).map
      (fun G => write_sector_bytes
        (List.replicate 708 0 ++ [1, 0, 0, 0, 0, 0, 0, 0, 0, 0, 0, 0, 0, 0, 0, 0])
        (gridFun G) 2) ≠
    some (List.replicate 708 0 ++ [1, 0, 0, 0, 0, 0, 0, 0, 0, 0, 0, 0, 0, 0, 0, 0]) := by
  intro hEq
  have hlen : 708 + 4 * (2 * 2) ≤
      (List.replicate 708 0 ++ [1, 0, 0, 0, 0, 0, 0, 0, 0, 0, 0, 0, 0, 0, 0, 0] : Buf).length := by
    simp only [List.length_append, List.length_replicate, List.length_cons, List.length_nil]
    omega
  rw [load_single_sector_eq _ 2 hlen (by omega), Option.map_some'] at hEq
  have henc := Option.some.inj hEq
  have h708 : (write_sector_bytes
      (List.replicate 708 0 ++ [1, 0, 0, 0, 0, 0, 0, 0, 0, 0, 0, 0, 0, 0, 0, 0])
      (gridFun ((List.range 2).map fun y =>
        (List.range 2).map fun x =>
          sampleAt (((List.replicate 708 0 ++
            [1, 0, 0, 0, 0, 0, 0, 0, 0, 0, 0, 0, 0, 0, 0, 0] : Buf).drop 708).take 16900)
            (y * 2 + x))) 2)[708]? =
      (List.replicate 708 0 ++ [1, 0, 0, 0, 0, 0, 0, 0, 0, 0, 0, 0, 0, 0, 0, 0] : Buf)[708]? := by
    rw [henc]
  rw [write_sector_bytes_getElem _ _ 2 hlen 708, if_pos (by norm_num)] at h708
  have hb716 : (List.replicate 708 0 ++
      [1, 0, 0, 0, 0, 0, 0, 0, 0, 0, 0, 0, 0, 0, 0, 0] : Buf).getD 716 0 = 0 := by
    rw [List.getD_eq_getElem?_getD,
      List.getElem?_append_right (by rw [List.length_replicate]; omega), List.length_replicate]
    rfl
  have hb717 : (List.replicate 708 0 ++
      [1, 0, 0, 0, 0, 0, 0, 0, 0, 0, 0, 0, 0, 0, 0, 0] : Buf).getD 717 0 = 0 := by
    rw [List.getD_eq_getElem?_getD,
      List.getElem?_append_right (by rw [List.length_replicate]; omega), List.length_replicate]
    rfl
  have hcb : cellBytes (gridFun ((List.range 2).map fun y =>
      (List.range 2).map fun x =>
        sampleAt (((List.replicate 708 0 ++
          [1, 0, 0, 0, 0, 0, 0, 0, 0, 0, 0, 0, 0, 0, 0, 0] : Buf).drop 708).take 16900)
          (y * 2 + x))) 2 ((708 - 708) / 4) = [0, 0] := by
    rw [show ((708 : ℕ) - 708) / 4 = 0 from rfl, cellBytes,
      show (2 - 1 - (0 : ℕ) / 2) = 1 from rfl, show ((0 : ℕ) % 2) = 0 from rfl,
      gridFun_mk _ 2 1 0 (by omega) (by omega),
      show (1 * 2 + 0 : ℕ) = 2 from rfl, sampleAt,
      region_getD _ _ (by omega), region_getD _ _ (by omega),
      show (708 + 4 * 2 : ℕ) = 716 from rfl, show (708 + (4 * 2 + 1) : ℕ) = 717 from rfl,
      hb716, hb717,
      div_mul_cancel₀ _ (by norm_num : (128 : ℚ) ≠ 0),
      show (((0 : ℕ) : ℚ) + 256 * ((0 : ℕ) : ℚ)) = (((0 : ℕ) : ℚ)) from by norm_num,
      pyInt_natCast, clampU16_natCast 0 (by omega)]
    rfl
  rw [hcb, show ((708 : ℕ) - 708) % 4 = 0 from rfl,
    List.getElem?_append_right (by rw [List.length_replicate]), List.length_replicate] at h708
  exact absurd h708 (by decide)

/-- C1 witness: the 712-byte buffer with single sample 7 at `g = 1`
round-trips after the flip. -/
theorem C1_roundtrip_flipped_witness :
    write_sector_bytes (List.replicate 708 0 ++ [7, 0, 0, 0])
      (gridFun ([[(7 : ℚ) / 128]] : List (List ℚ)).reverse) 1 =
      List.replicate 708 0 ++ [7, 0, 0, 0] := by
  have hlen : 708 + 4 * (1 * 1) ≤ (List.replicate 708 0 ++ [7, 0, 0, 0] : Buf).length := by
    simp only [List.length_append, List.length_replicate, List.length_cons, List.length_nil]
    omega
  have hsample : sampleAt (((List.replicate 708 0 ++ [7, 0, 0, 0] : Buf).drop 708).take 16900)
      (0 * 1 + 0) = (7 : ℚ) / 128 := by
    rw [sampleAt, region_getD _ _ (by omega), region_getD _ _ (by omega)]
    rw [show (708 + (4 * (0 * 1 + 0) + 1)) = 709 from rfl, show (708 + 4 * (0 * 1 + 0)) = 708 from rfl]
    rw [List.getD_eq_getElem?_getD, List.getD_eq_getElem?_getD,
      List.getElem?_append_right (by rw [List.length_replicate]),
      List.getElem?_append_right (by rw [List.length_replicate]; omega),
      List.length_replicate]
    norm_num
  have hG : load_single_sector (List.replicate 708 0 ++ [7, 0, 0, 0]) 1 = some [[(7 : ℚ) / 128]] := by
    rw [load_single_sector_eq _ 1 hlen (by omega)]
    rw [show ((List.range 1).map fun y =>
        (List.range 1).map fun x =>
          sampleAt (((List.replicate 708 0 ++ [7, 0, 0, 0] : Buf).drop 708).take 16900) (y * 1 + x)) =
      [[sampleAt (((List.replicate 708 0 ++ [7, 0, 0, 0] : Buf).drop 708).take 16900) (0 * 1 + 0)]] from rfl]
    rw [hsample]
  exact C1_roundtrip_flipped (List.replicate 708 0 ++ [7, 0, 0, 0]) 1 [[(7 : ℚ) / 128]]
    (by
      intro b hbm
      rcases List.mem_append.mp hbm with h | h
      · rw [List.eq_of_mem_replicate h]; omega
      · rcases h with _ | ⟨_, _ | ⟨_, _ | ⟨_, _ | ⟨_, h⟩⟩⟩⟩ <;> first | omega | exact absurd h (List.not_mem_nil _))
    hlen (by omega) hG

/-! ### Lemmas about the mosaic layer -/

theorem mod_as_sub (r g : ℕ) : r - r / g * g = r % g := by
  rw [Nat.sub_eq_iff_eq_add (Nat.div_mul_le_self r g), Nat.add_comm, Nat.mul_comm]
  exact (Nat.div_add_mod r g).symm

theorem slot_div {g dr s : ℕ} (hg : 0 < g) (hs : s < g) : (dr * g + s) / g = dr := by
  rw [Nat.add_comm, Nat.add_mul_div_right _ _ hg, Nat.div_eq_of_lt hs, Nat.zero_add]

theorem slot_row_lt {Y g dr : ℕ} (hdr : dr < Y) {s : ℕ} (hs : s < g) : dr * g + s < Y * g := by
  calc dr * g + s < dr * g + g := by omega
  _ = (dr + 1) * g := by ring
  _ ≤ Y * g := Nat.mul_le_mul_right g hdr

theorem block_cond_iff {g : ℕ} (hg : 0 < g) (dr c r cc : ℕ) :
    (dr * g ≤ r ∧ r < dr * g + g ∧ c * g ≤ cc ∧ cc < c * g + g) ↔
      (r / g = dr ∧ cc / g = c) := by
  constructor
  · rintro ⟨h1, h2, h3, h4⟩
    exact ⟨Nat.div_eq_of_lt_le h1 (by rw [Nat.add_mul, Nat.one_mul]; exact h2),
      Nat.div_eq_of_lt_le h3 (by rw [Nat.add_mul, Nat.one_mul]; exact h4)⟩
  · rintro ⟨rfl, rfl⟩
    refine ⟨Nat.div_mul_le_self r g, ?_, Nat.div_mul_le_self cc g, ?_⟩
    · conv_lhs => rw [← Nat.div_add_mod r g, Nat.mul_comm]
      exact Nat.add_lt_add_left (Nat.mod_lt _ hg) _
    · conv_lhs => rw [← Nat.div_add_mod cc g, Nat.mul_comm]
      exact Nat.add_lt_add_left (Nat.mod_lt _ hg) _

theorem blockVal_some {S : ℕ → Option (ℕ → ℕ → ℚ)} {X Y g r cc : ℕ} {G : ℕ → ℕ → ℚ}
    (hS : S ((Y - 1 - r / g) * X + cc / g) = some G) :
    blockVal S X Y g r cc = G (g - 1 - r % g) (cc % g) := by
  simp only [blockVal, hS]

theorem blockVal_none {S : ℕ → Option (ℕ → ℕ → ℚ)} {X Y g r cc : ℕ}
    (hS : S ((Y - 1 - r / g) * X + cc / g) = none) :
    blockVal S X Y g r cc = 0 := by
  simp only [blockVal, hS]

theorem placeStep_some {S : ℕ → Option (ℕ → ℕ → ℚ)} {X Y g : ℕ} {f : ℕ → ℕ → ℚ}
    {p : ℕ × ℕ} {G : ℕ → ℕ → ℚ} (hS : S ((Y - 1 - p.1) * X + p.2) = some G) :
    placeStep S X Y g f p = placeSector g G p.1 p.2 f := by
  simp only [placeStep, hS]

theorem placeStep_none {S : ℕ → Option (ℕ → ℕ → ℚ)} {X Y g : ℕ} {f : ℕ → ℕ → ℚ}
    {p : ℕ × ℕ} (hS : S ((Y - 1 - p.1) * X + p.2) = none) :
    placeStep S X Y g f p = f := by
  simp only [placeStep, hS]

/-- What the placement fold computes at one point: the last block containing
the point wins, and all blocks containing it carry the same sector, so the
result is `blockVal` whenever some loop iteration covered the point. -/
theorem foldl_placeStep (S : ℕ → Option (ℕ → ℕ → ℚ)) (X Y g : ℕ) (hg : 0 < g)
    (L : List (ℕ × ℕ)) (r cc : ℕ) :
    (L.foldl (placeStep S X Y g) fun _ _ => 0) r cc =
      if (r / g, cc / g) ∈ L then blockVal S X Y g r cc else 0 := by
  induction L using List.reverseRecOn with
  | nil => simp
  | append_singleton L p ih =>
    obtain ⟨pa, pb⟩ := p
    rw [List.foldl_append, List.foldl_cons, List.foldl_nil]
    cases hS : S ((Y - 1 - pa) * X + pb) with
    | none =>
      rw [placeStep_none hS, ih]
      by_cases hkL : ((r / g, cc / g) : ℕ × ℕ) ∈ L
      · rw [if_pos hkL, if_pos (List.mem_append_left _ hkL)]
      · rw [if_neg hkL]
        by_cases hkp : r / g = pa ∧ cc / g = pb
        · rw [if_pos (List.mem_append_right _ (by rw [hkp.1, hkp.2]; exact List.mem_singleton_self _))]
          rw [blockVal_none (by rw [hkp.1, hkp.2]; exact hS)]
        · rw [if_neg (by
            simp only [List.mem_append, List.mem_singleton, Prod.mk.injEq]
            rintro (h | h)
            exacts [hkL h, hkp h])]
    | some G =>
      rw [placeStep_some hS]
      simp only [placeSector]
      by_cases hcond : pa * g ≤ r ∧ r < pa * g + g ∧ pb * g ≤ cc ∧ cc < pb * g + g
      · rw [if_pos hcond]
        have hk := (block_cond_iff hg pa pb r cc).mp hcond
        rw [if_pos (List.mem_append_right _ (by rw [hk.1, hk.2]; exact List.mem_singleton_self _))]
        rw [blockVal_some (by rw [hk.1, hk.2]; exact hS), ← hk.1, ← hk.2,
          mod_as_sub r g, mod_as_sub cc g]
      · rw [if_neg hcond, ih]
        have hkp : ¬(r / g = pa ∧ cc / g = pb) := fun hk =>
          hcond ((block_cond_iff hg pa pb r cc).mpr hk)
        by_cases hkL : ((r / g, cc / g) : ℕ × ℕ) ∈ L
        · rw [if_pos hkL, if_pos (List.mem_append_left _ hkL)]
        · rw [if_neg hkL, if_neg (by
            simp only [List.mem_append, List.mem_singleton, Prod.mk.injEq]
            rintro (h | h)
            exacts [hkL h, hkp h])]

theorem pairList_mem (X Y : ℕ) (dr c : ℕ) :
    (dr, c) ∈ pairList X Y ↔ dr < Y ∧ c < X := by
  simp only [pairList, List.mem_flatMap, List.mem_map, List.mem_range, Prod.mk.injEq]
  constructor
  · rintro ⟨a, ha, b, hb, rfl, rfl⟩
    exact ⟨ha, hb⟩
  · rintro ⟨h1, h2⟩
    exact ⟨dr, h1, c, h2, rfl, rfl⟩

theorem placedFun_eq (S : ℕ → Option (ℕ → ℕ → ℚ)) (X Y g : ℕ) (hg : 0 < g)
    (r cc : ℕ) (hr : r < Y * g) (hcc : cc < X * g) :
    placedFun S X Y g r cc = blockVal S X Y g r cc := by
  rw [placedFun, foldl_placeStep S X Y g hg, if_pos]
  rw [pairList_mem]
  exact ⟨(Nat.div_lt_iff_lt_mul hg).mpr hr, (Nat.div_lt_iff_lt_mul hg).mpr hcc⟩

/-- Entry of the rotated and mirrored combined map, through `blockVal`. -/
theorem create_combined_entry (S : ℕ → Option (ℕ → ℕ → ℚ)) (X Y g : ℕ) (hg : 0 < g)
    (i j : ℕ) (hi : i < X * g) (hj : j < Y * g) :
    (create_combined_heightmap S X Y g).entry i j =
      blockVal S X Y g (Y * g - 1 - j) (X * g - 1 - i) := by
  simp only [create_combined_heightmap, fliplrM, rot90ccw]
  exact placedFun_eq S X Y g hg _ _ (by omega) (by omega)

/-- The export path's rotation chain (display rotation, then the three undo
steps) is the identity on the pre-rotation combined map: the entry at
`(r, cc)` is `blockVal` there. -/
theorem export_chain_entry (S : ℕ → Option (ℕ → ℕ → ℚ)) (X Y g : ℕ) (hg : 0 < g)
    (r cc : ℕ) (hr : r < Y * g) (hcc : cc < X * g) :
    (rot90cw (fliplrM (rot90cw (rot90ccw (create_combined_heightmap S X Y g))))).entry r cc =
      blockVal S X Y g r cc := by
  simp only [create_combined_heightmap, rot90cw, rot90ccw, fliplrM]
  rw [show Y * g - 1 - (Y * g - 1 - (Y * g - 1 - (Y * g - 1 - r))) = r from by omega,
    show X * g - 1 - (X * g - 1 - cc) = cc from by omega]
  exact placedFun_eq S X Y g hg r cc hr hcc

/-! ### Claim theorems for the mosaic layer -/

/-- C5 counterexample: with `sectors_x = 1`, `sectors_y = 2`, `grid_size = 1`
and no sectors, `create_combined_heightmap` returns a matrix with
`1 = sectors_x*grid_size` rows, not the `sectors_y*grid_size = 2` rows the
claim states: the final `np.rot90` swaps the dimensions. -/
theorem C5_counterexample :
    ¬ ((create_combined_heightmap (fun _ => none) 1 2 1).h = 2 * 1 ∧
      (create_combined_heightmap (fun _ => none) 1 2 1).w = 1 * 1) := by
  intro h
  exact absurd h.1 (by decide)

/-- C5 amended: the mosaic returned by `create_combined_heightmap` has
`sectors_x*grid_size` rows and `sectors_y*grid_size` columns (the
`(sectors_y*grid_size, sectors_x*grid_size)` placement array is rotated 90
degrees at the end, which transposes the dimensions). -/
theorem C5_mosaic_shape (S : ℕ → Option (ℕ → ℕ → ℚ)) (X Y g : ℕ) :
    (create_combined_heightmap S X Y g).h = X * g ∧
    (create_combined_heightmap S X Y g).w = Y * g :=
  ⟨rfl, rfl⟩

/-- C3 counterexample: a sector absent from the input does not stay absent.
With an empty sector map, one sector slot, and its file present on disk,
the export path still produces (and writes) a grid for index 0 — the
all-zero patch — whereas the claim requires `none`. -/
theorem C3_counterexample :
    exportSplit (create_combined_heightmap (fun _ => none) 1 1 1) 1 1 1 (fun _ => true) 0 ≠
      none := by
  simp [exportSplit]

/-- C3 amended: the geometric transforms do cancel: for every present sector
(whose file exists so that export writes it), the grid extracted by the
export path equals the original sector grid on all in-range cells; and
sectors whose files do not exist are not written.  Sectors absent from the
sector map whose files do exist come back as all-zero grids (see the
counterexample), which is the one deviation from the claim. -/
theorem C3_split_compose (S : ℕ → Option (ℕ → ℕ → ℚ)) (X Y g : ℕ) (P : ℕ → Bool)
    (sr c : ℕ) (G : ℕ → ℕ → ℚ) (hg : 0 < g) (hsr : sr < Y) (hc : c < X)
    (hS : S (sr * X + c) = some G) (hP : P (sr * X + c) = true) :
    (∃ G2, exportSplit (create_combined_heightmap S X Y g) X Y g P (sr * X + c) = some G2 ∧
      ∀ y x, y < g → x < g → G2 y x = G y x) ∧
    (∀ idx, P idx = false →
      exportSplit (create_combined_heightmap S X Y g) X Y g P idx = none) := by
  constructor
  · have hidx : sr * X + c < X * Y := by
      calc sr * X + c < sr * X + X := by omega
      _ = (sr + 1) * X := by ring
      _ ≤ Y * X := Nat.mul_le_mul_right X hsr
      _ = X * Y := Nat.mul_comm Y X
    rw [exportSplit, if_pos ⟨hidx, hP⟩]
    refine ⟨_, rfl, ?_⟩
    intro y x hy hx
    have hdivX : (sr * X + c) / X = sr := slot_div (by omega) hc
    have hmodX : (sr * X + c) % X = c := cell_mod hc
    rw [hdivX, hmodX]
    have hdr : Y - 1 - sr < Y := by omega
    rw [export_chain_entry S X Y g hg _ _
      (slot_row_lt hdr (by omega)) (slot_row_lt hc hx)]
    have hrg : ((Y - 1 - sr) * g + (g - 1 - y)) / g = Y - 1 - sr := slot_div hg (by omega)
    have hrm : ((Y - 1 - sr) * g + (g - 1 - y)) % g = g - 1 - y := cell_mod (by omega)
    have hcg : (c * g + x) / g = c := slot_div hg hx
    have hcm : (c * g + x) % g = x := cell_mod hx
    have hSS : S ((Y - 1 - ((Y - 1 - sr) * g + (g - 1 - y)) / g) * X + (c * g + x) / g) =
        some G := by
      rw [hrg, hcg, show Y - 1 - (Y - 1 - sr) = sr from by omega]
      exact hS
    rw [blockVal_some hSS]
    rw [hrm, hcm, show g - 1 - (g - 1 - y) = y from by omega]
  · intro idx hPidx
    rw [exportSplit, if_neg]
    rw [hPidx]
    simp

/-- C3 witness: one sector, grid size 1, constant grid 42, file present:
the split reproduces it and indices with absent files give `none`. -/
theorem C3_split_compose_witness :
    (∃ G2, exportSplit
        (create_combined_heightmap (fun _ => some fun _ _ => (42 : ℚ)) 1 1 1) 1 1 1
        (fun _ => true) (0 * 1 + 0) = some G2 ∧
      ∀ y x, y < 1 → x < 1 → G2 y x = (fun _ _ => (42 : ℚ)) y x) ∧
    (∀ idx, (fun _ => true) idx = false →
      exportSplit (create_combined_heightmap (fun _ => some fun _ _ => (42 : ℚ)) 1 1 1) 1 1 1
        (fun _ => true) idx = none) :=
  C3_split_compose (fun _ => some fun _ _ => (42 : ℚ)) 1 1 1 (fun _ => true) 0 0
    (fun _ _ => (42 : ℚ)) (by omega) (by omega) (by omega) rfl rfl

/-- Decode soft-fails (returns `None`) exactly when the available region
holds at least one sample but not the full grid; for `grid_size = 65` that
is every file length in `[710, 17605]`. -/
theorem load_none_of_truncated (B : Buf) (h1 : 710 ≤ B.length) (h2 : B.length ≤ 17605) :
    load_single_sector B 65 = none := by
  rw [load_single_sector, if_neg, if_neg] <;>
    rw [List.length_take, List.length_drop] <;> omega

/-- C9 counterexample: the claim quantifies over every file shorter than
`708 + 65*65*4 = 17608` bytes, but the boundary is wrong on both sides.  A
17606-byte file decodes completely (the last cell's 2 trailing payload
bytes may be missing), and a 708-byte file yields `g` empty rows — a numpy
array of shape `(65, 0)` — which is also not excluded from the sector map. -/
theorem C9_counterexample :
    (load_single_sector (List.replicate 17606 0) 65).isSome = true ∧
    (load_single_sector (List.replicate 708 0) 65).isSome = true := by
  constructor
  · rw [load_single_sector, if_pos (by
      simp only [List.length_take, List.length_drop, List.length_replicate]
      omega)]
    rfl
  · rw [load_single_sector,
      if_neg (by
        simp only [List.length_take, List.length_drop, List.length_replicate]
        omega),
      if_pos (by
        simp only [List.length_take, List.length_drop, List.length_replicate]
        omega)]
    rfl

/-- C9 amended: for a sector file whose length lies in `[710, 17605]`
(at least one readable sample, less than the full grid plus the last
sample), decode returns `None`, the sector is excluded from the sector map,
and its slot in the composed mosaic is all zeros; other sectors are
unaffected (the map and mosaic are built pointwise per index). -/
theorem C9_truncated_soft (files : ℕ → Option Buf) (B : Buf) (idx0 X Y : ℕ)
    (hf : files idx0 = some B) (h1 : 710 ≤ B.length) (h2 : B.length ≤ 17605) :
    load_sectors_map files idx0 = none ∧
    ∀ dr c i jj, dr < Y → c < X → (Y - 1 - dr) * X + c = idx0 → i < 65 → jj < 65 →
      (create_combined_heightmap (load_sectors_map files) X Y 65).entry
        (X * 65 - 1 - (c * 65 + jj)) (Y * 65 - 1 - (dr * 65 + i)) = 0 := by
  have hmap : load_sectors_map files idx0 = none := by
    rw [load_sectors_map, hf, Option.some_bind, load_none_of_truncated B h1 h2]
    rfl
  refine ⟨hmap, ?_⟩
  intro dr c i jj hdr hc hidx hi hjj
  have hr : dr * 65 + i < Y * 65 := slot_row_lt hdr hi
  have hcc : c * 65 + jj < X * 65 := slot_row_lt hc hjj
  rw [create_combined_entry (load_sectors_map files) X Y 65 (by omega) _ _
    (by omega) (by omega)]
  rw [show Y * 65 - 1 - (Y * 65 - 1 - (dr * 65 + i)) = dr * 65 + i from by omega,
    show X * 65 - 1 - (X * 65 - 1 - (c * 65 + jj)) = c * 65 + jj from by omega]
  exact blockVal_none (by
    rw [slot_div (by omega) hi, slot_div (by omega) hjj, hidx]
    exact hmap)

/-- C9 witness: an 808-byte file (the claim's own 708+100 scenario) in a
1-by-1 sector grid: decode soft-fails and the slot is zero. -/
theorem C9_truncated_soft_witness :
    load_sectors_map (fun _ => some (List.replicate 808 0)) 0 = none ∧
    ∀ dr c i jj, dr < 1 → c < 1 → (1 - 1 - dr) * 1 + c = 0 → i < 65 → jj < 65 →
      (create_combined_heightmap (load_sectors_map fun _ => some (List.replicate 808 0)) 1 1 65).entry
        (1 * 65 - 1 - (c * 65 + jj)) (1 * 65 - 1 - (dr * 65 + i)) = 0 :=
  C9_truncated_soft (fun _ => some (List.replicate 808 0)) (List.replicate 808 0) 0 1 1
    rfl (by rw [List.length_replicate]; omega) (by rw [List.length_replicate]; omega)

/-! ### Claim theorems for the normalizer -/

theorem matVals_const5 : matVals (Mat.mk 1 1 fun _ _ => (5 : ℚ)) = [5] := rfl

theorem matMin_const5 : matMin (Mat.mk 1 1 fun _ _ => (5 : ℚ)) = 5 := by
  rw [matMin, matVals_const5]
  simp

theorem matMax_const5 : matMax (Mat.mk 1 1 fun _ _ => (5 : ℚ)) = 5 := by
  rw [matMax, matVals_const5]
  simp

/-- C4 amended: when `max > min`, denormalizing the normalized mosaic with
the same min and max reconstructs every entry exactly (over exact
arithmetic); when `max == min`, the normalized image is all zeros and
denormalizing it yields the all-zero mosaic — not the all-`max` mosaic the
claim states — because the equal-min-max branch computes `pixel * max` and
every pixel is 0. -/
theorem C4_normalization (m : Mat) (i j : ℕ) :
    (denormalize (numpy_to_blender_norm m) (matMin m) (matMax m)).entry i j =
      (if matMin m < matMax m then m.entry i j else 0) ∧
    (matMax m = matMin m → (numpy_to_blender_norm m).entry i j = 0) := by
  constructor
  · simp only [denormalize, numpy_to_blender_norm]
    by_cases h : matMin m < matMax m
    · rw [if_pos h, if_pos h, if_pos h,
        div_mul_cancel₀ _ (sub_ne_zero.mpr (ne_of_gt h))]
      exact sub_add_cancel _ _
    · rw [if_neg h, if_neg h, if_neg h, zero_mul]
  · intro h
    simp only [numpy_to_blender_norm]
    rw [if_neg (by rw [h]; exact lt_irrefl _)]

/-- C4 counterexample: the all-5 one-cell mosaic has `max = min = 5`;
normalizing and denormalizing yields 0, not the all-max value 5. -/
theorem C4_counterexample :
    matMax (Mat.mk 1 1 fun _ _ => (5 : ℚ)) = matMin (Mat.mk 1 1 fun _ _ => (5 : ℚ)) ∧
    (denormalize (numpy_to_blender_norm (Mat.mk 1 1 fun _ _ => (5 : ℚ)))
        (matMin (Mat.mk 1 1 fun _ _ => (5 : ℚ)))
        (matMax (Mat.mk 1 1 fun _ _ => (5 : ℚ)))).entry 0 0 ≠
      matMax (Mat.mk 1 1 fun _ _ => (5 : ℚ)) := by
  constructor
  · rw [matMin_const5, matMax_const5]
  · simp only [denormalize, numpy_to_blender_norm]
    rw [matMin_const5, matMax_const5, if_neg (lt_irrefl 5), if_neg (lt_irrefl 5), zero_mul]
    norm_num

/-- C4 witness: a `1x2` mosaic with entries 0 and 1 exercises the
`max > min` reconstruction at cell `(0, 1)`, and the all-5 mosaic
exercises the all-zero normalized image in the `max == min` case. -/
theorem C4_normalization_witness :
    ((denormalize (numpy_to_blender_norm (Mat.mk 1 2 fun _ j => (j : ℚ)))
        (matMin (Mat.mk 1 2 fun _ j => (j : ℚ)))
        (matMax (Mat.mk 1 2 fun _ j => (j : ℚ)))).entry 0 1 =
      (if matMin (Mat.mk 1 2 fun _ j => (j : ℚ)) < matMax (Mat.mk 1 2 fun _ j => (j : ℚ))
        then (Mat.mk 1 2 fun _ j => (j : ℚ)).entry 0 1 else 0)) ∧
    (numpy_to_blender_norm (Mat.mk 1 1 fun _ _ => (5 : ℚ))).entry 0 0 = 0 :=
  ⟨(C4_normalization (Mat.mk 1 2 fun _ j => (j : ℚ)) 0 1).1,
   (C4_normalization (Mat.mk 1 1 fun _ _ => (5 : ℚ)) 0 0).2
     (by rw [matMin_const5, matMax_const5])⟩

end Csdat
